import Mathlib

/-!
# Verification of the karyo conversation-context and tool-orchestration engine

Shallow embedding of the context-management core of the repository:
* `src/util/token.ts`   — token estimation
* `src/context.ts`      — pruning, summarizing compaction, combined policy
* `src/permission.ts`   — dangerous-command classifier and approval gate

JavaScript numbers for the quantities handled here (string lengths, token
counts) are nonnegative integers below 2^52, where double arithmetic is
exact, so they are modelled as `Nat`.  Strings are Lean `String`s
(`List Char` underneath); the code paths modelled only ever treat them as
character sequences.
-/

namespace Karyo

/-! ## Token estimator (`src/util/token.ts`) -/

/-- `estimateTokens` from `src/util/token.ts`:
`Math.max(0, Math.round((text || "").length / CHARS_PER_TOKEN))` with
`CHARS_PER_TOKEN = 4`.  For a nonnegative integer `n`, JavaScript's
`Math.round (n / 4)` is `⌊n / 4 + 1 / 2⌋ = (n + 2) / 4` in natural-number
division (`n / 4` is an exact quarter in binary floating point, so no
rounding error occurs).  The outer `Math.max 0` is kept from the source. -/
def estimateTokens (text : String) : Nat :=
  max 0 ((text.length + 2) / 4)

/-! ## Message data model (`CoreMessage` of the `ai` SDK, as used by the code)

A message part is text, a tool call, or a tool result.  Tool-call arguments
and non-string tool-result payloads only ever reach the modelled code through
`JSON.stringify`, so they are represented by their serialized string form. -/

inductive Part where
  /-- A `text` part. -/
  | text (t : String)
  /-- A `tool-call` part: tool name, serialized arguments, call identifier. -/
  | toolCall (toolName : String) (args : String) (toolCallId : String)
  /-- A `tool-result` part: call identifier, result payload, error flag. -/
  | toolResult (toolCallId : String) (result : String) (isError : Bool)
  deriving DecidableEq, Repr

inductive Content where
  | str (s : String)
  | parts (ps : List Part)
  deriving DecidableEq, Repr

inductive Role where
  | user | assistant | tool | system
  deriving DecidableEq, Repr

structure Message where
  role : Role
  content : Content
  deriving DecidableEq, Repr

/-- Token estimate of a single part, as in `estimateMessageTokens`. -/
def estimatePartTokens : Part → Nat
  | Part.text t => estimateTokens t
  | Part.toolCall toolName args _ => estimateTokens toolName + estimateTokens args
  | Part.toolResult _ result _ => estimateTokens result

/-- `estimateMessageTokens` from `src/util/token.ts`: a fixed structural
overhead of 4 tokens plus the estimate of the content. -/
def estimateMessageTokens (m : Message) : Nat :=
  4 + match m.content with
      | Content.str s => estimateTokens s
      | Content.parts ps => (ps.map estimatePartTokens).sum

/-- `estimateConversationTokens` from `src/util/token.ts`. -/
def estimateConversationTokens (ms : List Message) : Nat :=
  (ms.map estimateMessageTokens).sum

/-- The spec's stated policy for the token estimator, written from the spec's
words (`tokens = ceil(max(0, length(text)) / 4)`), for comparison with the
code's `estimateTokens`. -/
def estimateTokensCeilSpec (text : String) : Nat :=
  ⌈(text.length : ℚ) / 4⌉₊

/-! ## C2: token estimator policy -/

/-- C2 counterexample: the claim says the estimator returns
`ceil(max(0, length(t)) / 4)`; on the one-character string `"a"` the code
returns `Math.max(0, Math.round(1 / 4)) = 0` while the claimed ceiling is
`1`. -/
theorem estimateTokens_ne_ceilSpec_at_singleton :
    estimateTokens "a" = 0 ∧ estimateTokensCeilSpec "a" = 1 ∧
      estimateTokens "a" ≠ estimateTokensCeilSpec "a" := by
  have h1 : ("a" : String).length = 1 := rfl
  have hc : estimateTokensCeilSpec "a" = 1 := by
    simp only [estimateTokensCeilSpec, h1]
    rw [show ((1 : Nat) : ℚ) / 4 = 1 / 4 by norm_num]
    rw [Nat.ceil_eq_iff (by norm_num)]
    norm_num
  refine ⟨rfl, hc, ?_⟩
  rw [hc]
  decide

/-- C2 (amended): for every string `t` the token estimator returns
`⌊length(t) / 4 + 1 / 2⌋` — JavaScript's `Math.round(length / 4)`, i.e.
round-half-up, not the ceiling — and as a Lean function it is by construction
a deterministic pure function of its input. -/
theorem estimateTokens_eq_round_half_up (t : String) :
    estimateTokens t = ⌊(t.length : ℚ) / 4 + 1 / 2⌋₊ := by
  have h : ((t.length : ℚ)) / 4 + 1 / 2 = ((t.length + 2 : ℕ) : ℚ) / ((4 : ℕ) : ℚ) := by
    push_cast
    ring
  rw [estimateTokens, h, Nat.floor_div_nat]
  have h4 : ⌊((t.length + 2 : ℕ) : ℚ)⌋₊ = t.length + 2 := Nat.floor_natCast _
  rw [h4]
  exact Nat.max_eq_right (Nat.zero_le _)

/-- Witness for the amended C2 theorem at a concrete input. -/
theorem estimateTokens_eq_round_half_up_witness :
    estimateTokens "abcde" = ⌊(("abcde" : String).length : ℚ) / 4 + 1 / 2⌋₊ :=
  estimateTokens_eq_round_half_up "abcde"

/-! ## Context manager (`src/context.ts`) -/

/-- `PRUNE_PROTECT`: protect the most recent 40k tokens of tool outputs. -/
def PRUNE_PROTECT : Nat := 40000

/-- `PRUNE_MINIMUM`: only prune if at least 20k tokens can be freed. -/
def PRUNE_MINIMUM : Nat := 20000

/-- `PRUNED_PLACEHOLDER`: the sentinel written over pruned tool results. -/
def PRUNED_PLACEHOLDER : String := "[Tool output cleared - context management]"

/-- A `ContextManager` bound to one model's resolved limits
(`this.limits.context` and `this.limits.output`). -/
structure ContextManager where
  context : Nat
  output : Nat

/-- `getUsableContext`: total context minus output reserve. -/
def getUsableContext (cm : ContextManager) : Nat :=
  cm.context - cm.output

/-- `shouldPrune`: `tokens > usable * CONTEXT_THRESHOLD` with
`CONTEXT_THRESHOLD = 0.7`, written with exact rational arithmetic as
`10 * tokens > 7 * usable`.  (The source compares against the binary double
nearest `0.7`; the difference can only show at exact-boundary token counts
and no claim here depends on the boundary.) -/
def shouldPrune (cm : ContextManager) (ms : List Message) : Bool :=
  decide (10 * estimateConversationTokens ms > 7 * getUsableContext cm)

/-- `shouldCompact`: `tokens > usable * COMPACT_THRESHOLD` with
`COMPACT_THRESHOLD = 0.85`, written as `100 * tokens > 85 * usable`. -/
def shouldCompact (cm : ContextManager) (ms : List Message) : Bool :=
  decide (100 * estimateConversationTokens ms > 85 * getUsableContext cm)

/-! ### Pruning (`pruneToolOutputs`)

The source makes one backward pass over the messages (skipping the most
recent two user turns, then inspecting tool-result parts of each remaining
array-content message in reverse part order) while threading one global
running token total, and pushes a `{msgIndex, partIndex, tokens}` record for
every part reached after the running total exceeds `PRUNE_PROTECT`.

The backward pass is embedded in two layers that together visit exactly the
same parts in exactly the same order with the same running total:
`visitSeq` lists the `(msgIndex, partIndex, resultStr)` triples the loops
reach, in traversal order, and `collect` threads `accumulatedTokens` over
that sequence, skipping already-pruned placeholders and emitting the
`toPrune` records.  In the recursions over reversed lists, the original
index of the head element is the length of the tail. -/

/-- One tool-result part reached by the backward traversal:
message index, part index, and the result string
(`typeof part.result === "string" ? part.result : JSON.stringify(part.result)`). -/
structure Visit where
  msgIndex : Nat
  partIndex : Nat
  result : String
  deriving DecidableEq, Repr

/-- One entry of the `toPrune` list: `{msgIndex, partIndex, tokens}`. -/
structure Cand where
  msgIndex : Nat
  partIndex : Nat
  tokens : Nat
  deriving DecidableEq, Repr

/-- Inner loop of the first pass: walk the parts of one message backwards
(the argument is the reversed part list, so the original index of the head
is the length of the tail) and record each `tool-result` part. -/
def partVisits (i : Nat) : List Part → List Visit
  | [] => []
  | p :: rest =>
    match p with
    | Part.toolResult _ r _ => ⟨i, rest.length, r⟩ :: partVisits i rest
    | _ => partVisits i rest

/-- Tool-result visits of one message: only array content is inspected
(`Array.isArray(msg.content)`), in reverse part order. -/
def msgVisits (i : Nat) (m : Message) : List Visit :=
  match m.content with
  | Content.parts ps => partVisits i ps.reverse
  | Content.str _ => []

/-- Whether a message counts as a user turn for the recency exemption
(`msg.role === "user"`). -/
def isUserMsg (m : Message) : Bool :=
  m.role == Role.user

/-- Outer loop of the first pass over the reversed message list: count user
turns, skip every message while fewer than two user turns have been seen
(`if (userTurns < 2) continue`), and visit the rest. -/
def eligibleVisits : List Message → Nat → List Visit
  | [], _ => []
  | m :: rest, userTurns =>
    let u := if isUserMsg m then userTurns + 1 else userTurns
    if u < 2 then eligibleVisits rest u
    else msgVisits rest.length m ++ eligibleVisits rest u

/-- The sequence of tool-result parts the backward pass reaches, in traversal
order (most recent eligible message first, last part of a message first). -/
def visitSeq (ms : List Message) : List Visit :=
  eligibleVisits ms.reverse 0

/-- Second layer of the first pass: thread `accumulatedTokens` over the visit
sequence, skip parts already equal to the placeholder, and mark a part for
pruning once the accumulated total exceeds `PRUNE_PROTECT`. -/
def collect : List Visit → Nat → List Cand
  | [], _ => []
  | v :: rest, acc =>
    if v.result = PRUNED_PLACEHOLDER then collect rest acc
    else
      let t := estimateTokens v.result
      if acc + t > PRUNE_PROTECT then ⟨v.msgIndex, v.partIndex, t⟩ :: collect rest (acc + t)
      else collect rest (acc + t)

/-- The `toPrune` list produced by the first pass. -/
def pruneCandidates (ms : List Message) : List Cand :=
  collect (visitSeq ms) 0

/-- `potentialSavings`: sum of the token estimates of all candidates. -/
def potentialSavings (ms : List Message) : Nat :=
  ((pruneCandidates ms).map Cand.tokens).sum

/-- Second pass, part level: rebuild one message's part list (`content.map`),
replacing the result of each part whose index was marked
(`pruneIndices.includes(j) && part.type === "tool-result"`) with the
placeholder while keeping its call identifier and error flag, and
accumulating `prunedCount` and `tokensSaved` (the pre-prune estimate of each
replaced part). -/
def pruneParts (pruneIndices : List Nat) : Nat → List Part → List Part × Nat × Nat
  | _, [] => ([], 0, 0)
  | j, p :: rest =>
    let r := pruneParts pruneIndices (j + 1) rest
    match p with
    | Part.toolResult id res err =>
      if j ∈ pruneIndices then
        (Part.toolResult id PRUNED_PLACEHOLDER err :: r.1,
         r.2.1 + 1, r.2.2 + estimateTokens res)
      else (p :: r.1, r.2)
    | _ => (p :: r.1, r.2)

/-- Second pass, message level: a message is copied unchanged when no part of
it was marked or when its content is not an array
(`pruneIndices.length === 0 || !Array.isArray(msg.content)`); otherwise its
content is rebuilt by `pruneParts`. -/
def pruneMsg (toPrune : List Cand) (i : Nat) (m : Message) : Message × Nat × Nat :=
  let pruneIndices := (toPrune.filter (fun c => c.msgIndex == i)).map Cand.partIndex
  match m.content with
  | Content.parts ps =>
    if pruneIndices.isEmpty then (m, 0, 0)
    else
      let r := pruneParts pruneIndices 0 ps
      ({ m with content := Content.parts r.1 }, r.2)
  | Content.str _ => (m, 0, 0)

/-- Second pass over the whole conversation, forward with index `i`. -/
def rebuildFrom (toPrune : List Cand) : Nat → List Message → List Message × Nat × Nat
  | _, [] => ([], 0, 0)
  | i, m :: rest =>
    let hd := pruneMsg toPrune i m
    let tl := rebuildFrom toPrune (i + 1) rest
    (hd.1 :: tl.1, hd.2.1 + tl.2.1, hd.2.2 + tl.2.2)

/-- Result record of `pruneToolOutputs`. -/
structure PruneResult where
  messages : List Message
  prunedCount : Nat
  tokensSaved : Nat
  deriving DecidableEq, Repr

/-- `pruneToolOutputs` from `src/context.ts`: identify candidates with the
backward pass; if the potential savings are below `PRUNE_MINIMUM`, return
the original conversation with zero counts; otherwise rebuild. -/
def pruneToolOutputs (ms : List Message) : PruneResult :=
  let toPrune := pruneCandidates ms
  if (toPrune.map Cand.tokens).sum < PRUNE_MINIMUM then
    ⟨ms, 0, 0⟩
  else
    let r := rebuildFrom toPrune 0 ms
    ⟨r.1, r.2.1, r.2.2⟩

/-! ### Compaction (`summarize`) and the combined policy (`processMessages`)

The summarizing model call (`generateText`) is external; it is modelled as an
oracle `gen : List Message → Option String` giving the generated summary text
on success and `none` when the call throws.  The `catch` branch of the
source returns the input conversation; the failure is only logged. -/

/-- `summarize` from `src/context.ts`: on success, replace the whole history
with the fixed three-message skeleton around the generated summary; on
failure of the model call, return the input unchanged. -/
def summarize (ms : List Message) (gen : List Message → Option String) : List Message :=
  match gen ms with
  | some text =>
    [⟨Role.user, Content.str "What have we accomplished so far in this session?"⟩,
     ⟨Role.assistant, Content.str text⟩,
     ⟨Role.user, Content.str "Thanks for the summary. Let's continue."⟩]
  | none => ms

/-- The action reported by `processMessages`. -/
inductive PMAction where
  | none | pruned | compacted
  deriving DecidableEq, Repr

/-- `processMessages` from `src/context.ts`: prune when over the prune
threshold; when pruning replaced something, re-check the compaction threshold
on the pruned conversation; when pruning did not fire or pruned nothing, fall
through to the compaction check on the original conversation. -/
def processMessages (cm : ContextManager) (ms : List Message)
    (gen : List Message → Option String) : List Message × PMAction :=
  if shouldPrune cm ms then
    let r := pruneToolOutputs ms
    if 0 < r.prunedCount then
      if shouldCompact cm r.messages then (summarize r.messages gen, PMAction.compacted)
      else (r.messages, PMAction.pruned)
    else
      if shouldCompact cm ms then (summarize ms gen, PMAction.compacted)
      else (ms, PMAction.none)
  else
    if shouldCompact cm ms then (summarize ms gen, PMAction.compacted)
    else (ms, PMAction.none)

/-! ## C4: prune-or-noop below the minimum-savings threshold -/

/-- C4: for every conversation in which the summed token estimates of the
pruning candidates is below 20,000, `pruneToolOutputs` returns the
conversation unchanged with `prunedCount = 0` and `tokensSaved = 0`. -/
theorem pruneToolOutputs_noop_below_minimum (ms : List Message)
    (h : potentialSavings ms < PRUNE_MINIMUM) :
    pruneToolOutputs ms = ⟨ms, 0, 0⟩ := by
  simp only [potentialSavings] at h
  simp only [pruneToolOutputs]
  rw [if_pos h]

/-- Witness for C4 at a concrete conversation. -/
theorem pruneToolOutputs_noop_below_minimum_witness :
    potentialSavings [Message.mk Role.user (Content.str "hello")] < PRUNE_MINIMUM ∧
      pruneToolOutputs [Message.mk Role.user (Content.str "hello")] =
        ⟨[Message.mk Role.user (Content.str "hello")], 0, 0⟩ :=
  ⟨by decide, pruneToolOutputs_noop_below_minimum _ (by decide)⟩

/-! ## C7: compaction collapse on success -/

/-- C7: whenever the summarizing model call succeeds with text `t`,
`summarize` returns exactly the three-message skeleton
(user prompt, assistant summary, user acknowledgment). -/
theorem summarize_success (ms : List Message) (gen : List Message → Option String)
    (t : String) (h : gen ms = some t) :
    summarize ms gen =
      [⟨Role.user, Content.str "What have we accomplished so far in this session?"⟩,
       ⟨Role.assistant, Content.str t⟩,
       ⟨Role.user, Content.str "Thanks for the summary. Let's continue."⟩] ∧
    (summarize ms gen).length = 3 ∧
    (summarize ms gen).map Message.role = [Role.user, Role.assistant, Role.user] := by
  have he : summarize ms gen =
      [⟨Role.user, Content.str "What have we accomplished so far in this session?"⟩,
       ⟨Role.assistant, Content.str t⟩,
       ⟨Role.user, Content.str "Thanks for the summary. Let's continue."⟩] := by
    simp only [summarize, h]
  exact ⟨he, by rw [he]; rfl, by rw [he]; rfl⟩

/-- Witness for C7 at a concrete conversation and oracle. -/
theorem summarize_success_witness :
    summarize [] (fun _ => some "All done.") =
      [⟨Role.user, Content.str "What have we accomplished so far in this session?"⟩,
       ⟨Role.assistant, Content.str "All done."⟩,
       ⟨Role.user, Content.str "Thanks for the summary. Let's continue."⟩] :=
  (summarize_success [] (fun _ => some "All done.") "All done." rfl).1

/-! ## C8: compaction failure safety -/

/-- C8: if the summarizing model call fails, `summarize` returns a
conversation equal to its input.  In the source the failure is caught and
only logged (`console.error`); no exception escapes, which the embedding
reflects by `summarize` being a total function into plain conversations. -/
theorem summarize_failure (ms : List Message) (gen : List Message → Option String)
    (h : gen ms = none) : summarize ms gen = ms := by
  simp only [summarize, h]

/-- Witness for C8 at a concrete conversation and failing oracle. -/
theorem summarize_failure_witness :
    summarize [Message.mk Role.user (Content.str "hi")] (fun _ => none) =
      [Message.mk Role.user (Content.str "hi")] :=
  summarize_failure _ (fun _ => none) rfl

/-! ## C3: the ordered decision procedure of `processMessages` -/

/-- C3: `processMessages` follows the ordered decision procedure.  When
`shouldPrune` holds and pruning replaced at least one part, the result is the
compacted pruned conversation (action `compacted`) if `shouldCompact` still
holds on the pruned conversation, and the pruned conversation (action
`pruned`) otherwise.  When pruning did not fire or pruned nothing, the result
is the compacted original (action `compacted`) if `shouldCompact` holds on
the original, and the unchanged original (action `none`) otherwise. -/
theorem processMessages_decision (cm : ContextManager) (ms : List Message)
    (gen : List Message → Option String) :
    (shouldPrune cm ms = true → 0 < (pruneToolOutputs ms).prunedCount →
      shouldCompact cm (pruneToolOutputs ms).messages = true →
      processMessages cm ms gen =
        (summarize (pruneToolOutputs ms).messages gen, PMAction.compacted)) ∧
    (shouldPrune cm ms = true → 0 < (pruneToolOutputs ms).prunedCount →
      shouldCompact cm (pruneToolOutputs ms).messages = false →
      processMessages cm ms gen = ((pruneToolOutputs ms).messages, PMAction.pruned)) ∧
    ((shouldPrune cm ms = false ∨ (pruneToolOutputs ms).prunedCount = 0) →
      shouldCompact cm ms = true →
      processMessages cm ms gen = (summarize ms gen, PMAction.compacted)) ∧
    ((shouldPrune cm ms = false ∨ (pruneToolOutputs ms).prunedCount = 0) →
      shouldCompact cm ms = false →
      processMessages cm ms gen = (ms, PMAction.none)) := by
  refine ⟨?_, ?_, ?_, ?_⟩
  · intro hp hn hc
    simp [processMessages, hp, hn, hc]
  · intro hp hn hc
    simp [processMessages, hp, hn, hc]
  · intro h1 hc
    rcases h1 with hp | h0
    · simp [processMessages, hp, hc]
    · by_cases hsp : shouldPrune cm ms <;> simp [processMessages, hsp, h0, hc]
  · intro h1 hc
    rcases h1 with hp | h0
    · simp [processMessages, hp, hc]
    · by_cases hsp : shouldPrune cm ms <;> simp [processMessages, hsp, h0, hc]

/-- Witness for C3 at a concrete manager, conversation and oracle. -/
theorem processMessages_decision_witness :
    processMessages ⟨200000, 8192⟩ [] (fun _ => Option.none) = ([], PMAction.none) :=
  (processMessages_decision ⟨200000, 8192⟩ [] (fun _ => Option.none)).2.2.2
    (Or.inl (by decide)) (by decide)

/-! ## Permission gate (`src/permission.ts`)

`isDangerousCommand` tests the trimmed, lowercased command against a fixed
list of JavaScript regular expressions.  The patterns only use literal
characters, `\s` (one whitespace), `\s+`, `\s*`, a single optional character
`c?`, the word-boundary assertion `\b`, the start anchor `^` and the end
anchor `$`, so they are embedded as sequences of those items and matched by
a small nondeterministic matcher (`RegExp.prototype.test` asks whether any
match exists, which is what the matcher decides). -/

/-- JavaScript `\s` (the ECMAScript WhiteSpace and LineTerminator sets). -/
def jsIsSpace (c : Char) : Bool :=
  c == ' ' || c == '\t' || c == '\n' || c == '\r' || c == '\x0b' || c == '\x0c' ||
  c == ' ' || c == ' ' || (0x2000 ≤ c.toNat && c.toNat ≤ 0x200A) ||
  c == ' ' || c == ' ' || c == ' ' || c == ' ' ||
  c == '　' || c == '﻿'

/-- JavaScript word character for `\b`: `[A-Za-z0-9_]`. -/
def jsIsWordChar (c : Char) : Bool :=
  ('a' ≤ c && c ≤ 'z') || ('A' ≤ c && c ≤ 'Z') || ('0' ≤ c && c ≤ '9') || c == '_'

/-- One item of a pattern body. -/
inductive RItem where
  /-- A literal character. -/
  | lit (c : Char)
  /-- `\s` — exactly one whitespace character. -/
  | ws
  /-- `\s+`. -/
  | wsPlus
  /-- `\s*`. -/
  | wsStar
  /-- `c?` — an optional literal character. -/
  | opt (c : Char)
  /-- `\b` — a word-boundary assertion (zero width). -/
  | wordB
  /-- `$` — end of input. -/
  | eos
  deriving DecidableEq, Repr

/-- A pattern: optionally anchored at the start (`^`), then a body. -/
structure RPattern where
  anchored : Bool
  items : List RItem

/-- Whether the position before `s`, with previous character `prev`
(`none` at the start of the input), is a word boundary. -/
def atBoundary (prev : Option Char) (s : List Char) : Bool :=
  (match prev with | some c => jsIsWordChar c | none => false) !=
  (match s.head? with | some c => jsIsWordChar c | none => false)

/-- Match the continuation `k` after consuming zero or more whitespace
characters (the nondeterministic expansion of `\s*`). -/
def matchAfterWS (k : Option Char → List Char → Bool) : Option Char → List Char → Bool
  | prev, [] => k prev []
  | prev, d :: s => k prev (d :: s) || (jsIsSpace d && matchAfterWS k (some d) s)

/-- Match a pattern body at the current position: `prev` is the character
just before the position (for `\b`), `s` the remaining input.  Star and
option items are matched nondeterministically, so the result is `true`
exactly when some match of the body starts here; `\s+` matches one
whitespace character followed by `\s*`. -/
def matchItems : List RItem → Option Char → List Char → Bool
  | [], _, _ => true
  | RItem.lit _ :: _, _, [] => false
  | RItem.lit c :: rest, _, d :: s => d == c && matchItems rest (some d) s
  | RItem.ws :: _, _, [] => false
  | RItem.ws :: rest, _, d :: s => jsIsSpace d && matchItems rest (some d) s
  | RItem.wsPlus :: _, _, [] => false
  | RItem.wsPlus :: rest, _, d :: s =>
      jsIsSpace d && matchAfterWS (fun p t => matchItems rest p t) (some d) s
  | RItem.wsStar :: rest, prev, s => matchAfterWS (fun p t => matchItems rest p t) prev s
  | RItem.opt _ :: rest, prev, [] => matchItems rest prev []
  | RItem.opt c :: rest, prev, d :: s =>
      (d == c && matchItems rest (some d) s) || matchItems rest prev (d :: s)
  | RItem.wordB :: rest, prev, s => atBoundary prev s && matchItems rest prev s
  | RItem.eos :: rest, prev, [] => matchItems rest prev []
  | RItem.eos :: _, _, _ :: _ => false

/-- Try the body at every start position (an unanchored `test`). -/
def searchItems : List RItem → Option Char → List Char → Bool
  | its, prev, [] => matchItems its prev []
  | its, prev, d :: s => matchItems its prev (d :: s) || searchItems its (some d) s

/-- `pattern.test(s)`. -/
def rtest (p : RPattern) (s : List Char) : Bool :=
  if p.anchored then matchItems p.items none s else searchItems p.items none s

/-- A run of literal characters. -/
def lits (s : String) : List RItem :=
  s.data.map RItem.lit

/-- `DANGEROUS_BASH_PATTERNS` from `src/permission.ts`, pattern for pattern. -/
def DANGEROUS_BASH_PATTERNS : List RPattern :=
  [ ⟨true, lits "rm" ++ [RItem.ws]⟩,                                                -- /^rm\s/
    ⟨true, lits "rm" ++ [RItem.eos]⟩,                                               -- /^rm$/
    ⟨false, [RItem.wordB] ++ lits "rm" ++ [RItem.wsPlus] ++ lits "-r" ++
            [RItem.opt 'f', RItem.ws]⟩,                                             -- /\brm\s+-rf?\s/
    ⟨false, [RItem.wordB] ++ lits "rmdir" ++ [RItem.wordB]⟩,                        -- /\brmdir\b/
    ⟨true, lits "sudo" ++ [RItem.ws]⟩,                                              -- /^sudo\s/
    ⟨true, lits "su" ++ [RItem.ws]⟩,                                                -- /^su\s/
    ⟨false, [RItem.wordB] ++ lits "chmod" ++ [RItem.wordB]⟩,                        -- /\bchmod\b/
    ⟨false, [RItem.wordB] ++ lits "chown" ++ [RItem.wordB]⟩,                        -- /\bchown\b/
    ⟨false, [RItem.wordB] ++ lits "git" ++ [RItem.wsPlus] ++ lits "push" ++
            [RItem.wordB]⟩,                                                         -- /\bgit\s+push\b/
    ⟨false, [RItem.wordB] ++ lits "git" ++ [RItem.wsPlus] ++ lits "reset" ++
            [RItem.wsPlus] ++ lits "--hard" ++ [RItem.wordB]⟩,                      -- /\bgit\s+reset\s+--hard\b/
    ⟨false, [RItem.wordB] ++ lits "git" ++ [RItem.wsPlus] ++ lits "clean" ++
            [RItem.wordB]⟩,                                                         -- /\bgit\s+clean\b/
    ⟨false, [RItem.wordB] ++ lits "dd" ++ [RItem.ws]⟩,                              -- /\bdd\s/
    ⟨false, [RItem.wordB] ++ lits "mkfs" ++ [RItem.wordB]⟩,                         -- /\bmkfs\b/
    ⟨false, [RItem.lit '>', RItem.wsStar] ++ lits "/dev/"⟩,                         -- />\s*\/dev\//
    ⟨false, [RItem.wordB] ++ lits "kill" ++ [RItem.wsPlus] ++ lits "-9" ++
            [RItem.wordB]⟩,                                                         -- /\bkill\s+-9\b/
    ⟨false, [RItem.wordB] ++ lits "pkill" ++ [RItem.wordB]⟩,                        -- /\bpkill\b/
    ⟨false, [RItem.wordB] ++ lits "shutdown" ++ [RItem.wordB]⟩,                     -- /\bshutdown\b/
    ⟨false, [RItem.wordB] ++ lits "reboot" ++ [RItem.wordB]⟩ ]                      -- /\breboot\b/

/-- JavaScript `String.prototype.trim`: drop `\s`-class characters from both
ends. -/
def jsTrim (l : List Char) : List Char :=
  ((l.dropWhile jsIsSpace).reverse.dropWhile jsIsSpace).reverse

/-- ASCII case mapping of `toLowerCase` (every character the modelled
patterns and inputs use is ASCII). -/
def jsToLowerChar (c : Char) : Char :=
  if 'A' ≤ c ∧ c ≤ 'Z' then Char.ofNat (c.toNat + 32) else c

/-- `isDangerousCommand` from `src/permission.ts`: test the trimmed,
lowercased command against every pattern. -/
def isDangerousCommand (command : String) : Bool :=
  let trimmed := (jsTrim command.data).map jsToLowerChar
  DANGEROUS_BASH_PATTERNS.any (fun p => rtest p trimmed)

/-! ## C9: dangerous-command coverage -/

/-- C9: the classifier accepts `"rm -rf /tmp/x"`, `"sudo reboot"` and
`"git push --force"` and rejects `"ls -la"` and `"echo hello"`; the last two
conjuncts exercise the trimming and the case-insensitive matching on padded
upper-case variants of a dangerous command. -/
theorem isDangerousCommand_coverage :
    isDangerousCommand "rm -rf /tmp/x" = true ∧
    isDangerousCommand "sudo reboot" = true ∧
    isDangerousCommand "git push --force" = true ∧
    isDangerousCommand "ls -la" = false ∧
    isDangerousCommand "echo hello" = false ∧
    isDangerousCommand "  RM -RF /tmp/x  " = true ∧
    isDangerousCommand "GIT PUSH --FORCE" = true := by
  decide

/-! ## Approval gate (`askPermission`) -/

/-- Outcome of one `askPermission` call: the returned boolean, the approval
set afterwards, and whether the user was prompted (the prompt is only shown
when the key is not already in the approval set). -/
structure AskResult where
  granted : Bool
  approved : List String
  prompted : Bool
  deriving DecidableEq, Repr

/-- `askPermission` from `src/permission.ts`: the approval record is keyed by
the single string `action ++ ":" ++ details`; an already-approved key returns
`true` without prompting; otherwise the trimmed, lowercased answer decides
(`y`/`yes` grant once, `always`/`a` grant and record, anything else denies). -/
def askPermission (approved : List String) (action details answer : String) : AskResult :=
  let key := action ++ ":" ++ details
  if key ∈ approved then ⟨true, approved, false⟩
  else
    let normalized := String.mk ((jsTrim answer.data).map jsToLowerChar)
    if normalized = "y" ∨ normalized = "yes" then ⟨true, approved, true⟩
    else if normalized = "always" ∨ normalized = "a" then ⟨true, key :: approved, true⟩
    else ⟨false, approved, true⟩

/-! ## C10: approval-record key collision -/

/-- C10: the approval record is keyed by `action ++ ":" ++ details`, so the
distinct pairs `("bash", "x:y")` and `("bash:x", "y")` share the key
`"bash:x:y"`; after an "always" approval of the first, a request for the
second is granted without prompting, whatever the user would have answered. -/
theorem askPermission_key_collision :
    (("bash" : String), ("x:y" : String)) ≠ (("bash:x" : String), ("y" : String)) ∧
    ("bash" ++ ":" ++ "x:y" : String) = ("bash:x" ++ ":" ++ "y" : String) ∧
    (∀ answer : String,
      askPermission (askPermission [] "bash" "x:y" "always").approved
          "bash:x" "y" answer =
        ⟨true, (askPermission [] "bash" "x:y" "always").approved, false⟩) := by
  have h : (askPermission [] "bash" "x:y" "always").approved = ["bash:x:y"] := by decide
  refine ⟨by decide, by decide, ?_⟩
  intro answer
  rw [h]
  have hmem : ("bash:x" ++ ":" ++ "y" : String) ∈ (["bash:x:y"] : List String) := by decide
  simp only [askPermission]
  rw [if_pos hmem]

/-! ## Structural lemmas about the backward pruning pass -/

/-- Whether a part is a `tool-result` part. -/
def isToolResultPart : Part → Bool
  | Part.toolResult _ _ _ => true
  | _ => false

/-- The `CoreMessage` typing of the `ai` SDK (the type of the conversations
this program builds): tool-result parts occur only in `tool`-role messages,
never in the content of a `user`-role message (`CoreUserMessage` content is
text/image/file parts only). -/
def userMsgHasNoToolResult (m : Message) : Bool :=
  if isUserMsg m then
    match m.content with
    | Content.str _ => true
    | Content.parts ps => ps.all (fun p => !(isToolResultPart p))
  else true

/-- Number of user-role messages in a list. -/
def userMsgCount (l : List Message) : Nat :=
  l.countP isUserMsg

theorem userMsgCount_reverse (l : List Message) :
    userMsgCount l.reverse = userMsgCount l := by
  simp [userMsgCount, List.countP_eq_length_filter]

theorem partVisits_mem {i : Nat} {l : List Part} {v : Visit}
    (h : v ∈ partVisits i l) :
    v.msgIndex = i ∧ ∃ pre p post, l = pre ++ p :: post ∧ v.partIndex = post.length ∧
      ∃ id e, p = Part.toolResult id v.result e := by
  induction l with
  | nil => simp [partVisits] at h
  | cons p rest ih =>
    cases p with
    | toolResult id r e =>
      simp only [partVisits] at h
      rcases List.mem_cons.mp h with hv | hv
      · subst hv
        exact ⟨rfl, [], Part.toolResult id r e, rest, rfl, rfl, id, e, rfl⟩
      · obtain ⟨hi, pre, p', post, heq, hpi, hid⟩ := ih hv
        exact ⟨hi, Part.toolResult id r e :: pre, p', post, by simp [heq], hpi, hid⟩
    | text t =>
      simp only [partVisits] at h
      obtain ⟨hi, pre, p', post, heq, hpi, hid⟩ := ih h
      exact ⟨hi, Part.text t :: pre, p', post, by simp [heq], hpi, hid⟩
    | toolCall n a cid =>
      simp only [partVisits] at h
      obtain ⟨hi, pre, p', post, heq, hpi, hid⟩ := ih h
      exact ⟨hi, Part.toolCall n a cid :: pre, p', post, by simp [heq], hpi, hid⟩

theorem partVisits_eq_nil_of_no_toolResults {i : Nat} {l : List Part}
    (h : ∀ p ∈ l, isToolResultPart p = false) :
    partVisits i l = [] := by
  induction l with
  | nil => rfl
  | cons p rest ih =>
    cases p with
    | toolResult id r e => exact absurd (h _ (List.mem_cons_self _ _)) (by simp [isToolResultPart])
    | text t => exact ih fun p hp => h p (List.mem_cons_of_mem _ hp)
    | toolCall n a cid => exact ih fun p hp => h p (List.mem_cons_of_mem _ hp)

theorem eligibleVisits_mem {l : List Message} {u : Nat} {v : Visit}
    (h : v ∈ eligibleVisits l u) :
    ∃ pre m post, l = pre ++ m :: post ∧ v ∈ msgVisits post.length m ∧
      2 ≤ u + userMsgCount (pre ++ [m]) := by
  induction l generalizing u with
  | nil => simp [eligibleVisits] at h
  | cons m rest ih =>
    have hcnt : ∀ (x : Message) (xs : List Message),
        userMsgCount (x :: xs) = (if isUserMsg x then 1 else 0) + userMsgCount xs := by
      intro x xs
      simp only [userMsgCount, List.countP_cons]
      split <;> omega
    simp only [eligibleVisits] at h
    by_cases hum : isUserMsg m = true
    · rw [show (if isUserMsg m = true then u + 1 else u) = u + 1 from if_pos hum] at h
      by_cases hlt : u + 1 < 2
      · rw [if_pos hlt] at h
        obtain ⟨pre', m', post', heq, hv, hc⟩ := ih h
        refine ⟨m :: pre', m', post', by simp [heq], hv, ?_⟩
        rw [List.cons_append, hcnt, hum]
        simp only [if_true]
        omega
      · rw [if_neg hlt] at h
        rcases List.mem_append.mp h with hv | hv
        · refine ⟨[], m, rest, rfl, hv, ?_⟩
          rw [List.nil_append, hcnt, hum]
          simp only [if_true, userMsgCount, List.countP_nil]
          omega
        · obtain ⟨pre', m', post', heq, hv', hc⟩ := ih hv
          refine ⟨m :: pre', m', post', by simp [heq], hv', ?_⟩
          rw [List.cons_append, hcnt, hum]
          simp only [if_true]
          omega
    · rw [show (if isUserMsg m = true then u + 1 else u) = u from if_neg hum] at h
      rw [Bool.not_eq_true] at hum
      by_cases hlt : u < 2
      · rw [if_pos hlt] at h
        obtain ⟨pre', m', post', heq, hv, hc⟩ := ih h
        refine ⟨m :: pre', m', post', by simp [heq], hv, ?_⟩
        rw [List.cons_append, hcnt, hum]
        simp only [Bool.false_eq_true, if_false]
        omega
      · rw [if_neg hlt] at h
        rcases List.mem_append.mp h with hv | hv
        · refine ⟨[], m, rest, rfl, hv, ?_⟩
          rw [List.nil_append, hcnt, hum]
          simp only [Bool.false_eq_true, if_false, userMsgCount, List.countP_nil]
          omega
        · obtain ⟨pre', m', post', heq, hv', hc⟩ := ih hv
          refine ⟨m :: pre', m', post', by simp [heq], hv', ?_⟩
          rw [List.cons_append, hcnt, hum]
          simp only [Bool.false_eq_true, if_false]
          omega

theorem collect_mem {seq : List Visit} {acc : Nat} {c : Cand}
    (h : c ∈ collect seq acc) :
    ∃ s, (⟨c.msgIndex, c.partIndex, s⟩ : Visit) ∈ seq ∧ s ≠ PRUNED_PLACEHOLDER ∧
      c.tokens = estimateTokens s := by
  induction seq generalizing acc with
  | nil => simp [collect] at h
  | cons v rest ih =>
    simp only [collect] at h
    by_cases hph : v.result = PRUNED_PLACEHOLDER
    · rw [if_pos hph] at h
      obtain ⟨s, hmem, hs, ht⟩ := ih h
      exact ⟨s, List.mem_cons_of_mem _ hmem, hs, ht⟩
    · rw [if_neg hph] at h
      by_cases hgt : acc + estimateTokens v.result > PRUNE_PROTECT
      · rw [if_pos hgt] at h
        rcases List.mem_cons.mp h with hc | hc
        · refine ⟨v.result, ?_, hph, by rw [hc]⟩
          rw [hc]
          exact List.mem_cons_self _ _
        · obtain ⟨s, hmem, hs, ht⟩ := ih hc
          exact ⟨s, List.mem_cons_of_mem _ hmem, hs, ht⟩
      · rw [if_neg hgt] at h
        obtain ⟨s, hmem, hs, ht⟩ := ih h
        exact ⟨s, List.mem_cons_of_mem _ hmem, hs, ht⟩

/-- No pruning candidate points into the most recent two user turns: if at
most one user message lies strictly after index `idx`, no candidate carries
message index `idx` (for well-typed conversations, whose user messages hold
no tool results). -/
theorem pruneCandidates_msgIndex_ne (ms : List Message) (idx : Nat)
    (hwf : ms.all userMsgHasNoToolResult = true)
    (hwin : userMsgCount (ms.drop (idx + 1)) ≤ 1) :
    ∀ c ∈ pruneCandidates ms, c.msgIndex ≠ idx := by
  intro c hc heq
  obtain ⟨s, hvmem, _, _⟩ := collect_mem hc
  obtain ⟨pre, m, post, hrev, hv, hcount⟩ := eligibleVisits_mem hvmem
  -- the visit's message index is the length of `post`
  have hidx : idx = post.length := by
    rcases hcm : m.content with s' | ps
    · simp [msgVisits, hcm] at hv
    · rw [msgVisits, hcm] at hv
      have := (partVisits_mem hv).1
      simp at this
      omega
  -- reconstruct the conversation from its reversed decomposition
  have hms : ms = post.reverse ++ m :: pre.reverse := by
    have := congrArg List.reverse hrev
    simpa using this
  have hdrop : ms.drop (idx + 1) = pre.reverse := by
    rw [hms, hidx]
    rw [show post.reverse ++ m :: pre.reverse = (post.reverse ++ [m]) ++ pre.reverse by simp]
    rw [show post.length + 1 = (post.reverse ++ [m]).length by simp]
    exact List.drop_left _ _
  have hpre : userMsgCount pre ≤ 1 := by
    rw [hdrop] at hwin
    rwa [userMsgCount_reverse] at hwin
  -- the count bound forces `m` to be the second most recent user message
  have hsum : userMsgCount (pre ++ [m]) = userMsgCount pre + userMsgCount [m] := by
    simp [userMsgCount, List.countP_append]
  have hm1 : userMsgCount [m] ≤ 1 := by
    simp only [userMsgCount, List.countP_cons, List.countP_nil]
    split <;> omega
  have hmu : isUserMsg m = true := by
    by_contra hmu
    have : userMsgCount [m] = 0 := by
      simp only [userMsgCount, List.countP_cons, List.countP_nil]
      simp [Bool.not_eq_true] at hmu
      simp [hmu]
    omega
  -- a user message carries no tool results, so it contributes no visits
  have hmem : m ∈ ms := by
    rw [hms]
    exact List.mem_append_right _ (List.mem_cons_self _ _)
  have hwfm := (List.all_eq_true.mp hwf) m hmem
  rw [userMsgHasNoToolResult, if_pos hmu] at hwfm
  rcases hcm : m.content with s' | ps
  · simp [msgVisits, hcm] at hv
  · rw [hcm] at hwfm
    have hnone : ∀ p ∈ ps.reverse, isToolResultPart p = false := by
      intro p hp
      have := List.all_eq_true.mp hwfm p (List.mem_reverse.mp hp)
      simpa using this
    rw [msgVisits, hcm] at hv
    have hv' : (⟨c.msgIndex, c.partIndex, s⟩ : Visit) ∈ partVisits post.length ps.reverse := hv
    rw [partVisits_eq_nil_of_no_toolResults hnone] at hv'
    simp at hv'

theorem rebuildFrom_length (tp : List Cand) (k : Nat) (ms : List Message) :
    (rebuildFrom tp k ms).1.length = ms.length := by
  induction ms generalizing k with
  | nil => rfl
  | cons m rest ih => simp [rebuildFrom, ih]

theorem rebuildFrom_getElem (tp : List Cand) (k n : Nat) (ms : List Message) :
    (rebuildFrom tp k ms).1[n]? = (ms[n]?).map (fun m => (pruneMsg tp (k + n) m).1) := by
  induction ms generalizing k n with
  | nil => simp [rebuildFrom]
  | cons m rest ih =>
    cases n with
    | zero => simp [rebuildFrom]
    | succ n' =>
      simp only [rebuildFrom, List.getElem?_cons_succ]
      rw [ih (k + 1) n']
      have : k + 1 + n' = k + (n' + 1) := by omega
      rw [this]

/-- A message none of whose part indices are marked is copied unchanged. -/
theorem pruneMsg_eq_of_not_marked (tp : List Cand) (i : Nat) (m : Message)
    (h : ∀ c ∈ tp, c.msgIndex ≠ i) :
    pruneMsg tp i m = (m, 0, 0) := by
  have hfil : tp.filter (fun c => c.msgIndex == i) = [] := by
    rw [List.filter_eq_nil_iff]
    intro c hc
    simpa using h c hc
  rcases hcm : m.content with s | ps
  · simp [pruneMsg, hcm]
  · simp [pruneMsg, hcm, hfil]

/-! ## C1: recency protection -/

/-- C1: for a conversation of the `CoreMessage` type (user messages carry no
tool-result parts), every message within the most recent two user turns —
every index followed by at most one user message — is exempt from pruning:
no pruning candidate points at it, and `pruneToolOutputs` returns it
unchanged, regardless of the size of its tool results. -/
theorem pruneToolOutputs_recency_protection (ms : List Message) (idx : Nat)
    (hwf : ms.all userMsgHasNoToolResult = true)
    (hwin : userMsgCount (ms.drop (idx + 1)) ≤ 1) :
    (∀ c ∈ pruneCandidates ms, c.msgIndex ≠ idx) ∧
      (pruneToolOutputs ms).messages[idx]? = ms[idx]? := by
  have hne := pruneCandidates_msgIndex_ne ms idx hwf hwin
  refine ⟨hne, ?_⟩
  simp only [pruneToolOutputs]
  by_cases hmin : ((pruneCandidates ms).map Cand.tokens).sum < PRUNE_MINIMUM
  · rw [if_pos hmin]
  · rw [if_neg hmin]
    show (rebuildFrom (pruneCandidates ms) 0 ms).1[idx]? = ms[idx]?
    rw [rebuildFrom_getElem, Nat.zero_add]
    rcases hms : ms[idx]? with _ | m
    · rfl
    · simp only [Option.map_some']
      rw [pruneMsg_eq_of_not_marked _ _ _ hne]

/-- Witness for C1 at a concrete conversation and protected index. -/
theorem pruneToolOutputs_recency_protection_witness :
    ([⟨Role.tool, Content.parts [Part.toolResult "c1" "out" false]⟩,
      ⟨Role.user, Content.str "hi"⟩] : List Message).all userMsgHasNoToolResult = true ∧
    userMsgCount (([⟨Role.tool, Content.parts [Part.toolResult "c1" "out" false]⟩,
      ⟨Role.user, Content.str "hi"⟩] : List Message).drop 1) ≤ 1 ∧
    (pruneToolOutputs [⟨Role.tool, Content.parts [Part.toolResult "c1" "out" false]⟩,
      ⟨Role.user, Content.str "hi"⟩]).messages[0]? =
      some ⟨Role.tool, Content.parts [Part.toolResult "c1" "out" false]⟩ :=
  ⟨by decide, by decide,
    by
      rw [(pruneToolOutputs_recency_protection
        [⟨Role.tool, Content.parts [Part.toolResult "c1" "out" false]⟩,
         ⟨Role.user, Content.str "hi"⟩] 0 (by decide) (by decide)).2]
      rfl⟩

/-! ## Lemmas for prune idempotence (C5) and the prune frame (C6)

The second pass replaces exactly the marked parts.  To relate the visit
sequence of the rebuilt conversation to the visit sequence of the original,
the forward rebuild is re-expressed along the reversed traversal
(`revPrune`, `revPruneParts`), and the part-level replacement is captured by
`applyPrune`/`maskVisit`. -/

/-- The replacement the second pass applies to the part at index `k`. -/
def applyPrune (pruneIndices : List Nat) (k : Nat) (p : Part) : Part :=
  match p with
  | Part.toolResult id _ err =>
    if k ∈ pruneIndices then Part.toolResult id PRUNED_PLACEHOLDER err else p
  | _ => p

/-- Whether candidate `c` points at visit `v`. -/
def visitKeyMatch (c : Cand) (v : Visit) : Bool :=
  c.msgIndex == v.msgIndex && c.partIndex == v.partIndex

/-- The effect of the second pass on one visit: if some candidate points at
it, its result string becomes the placeholder. -/
def maskVisit (tp : List Cand) (v : Visit) : Visit :=
  if tp.any (fun c => visitKeyMatch c v) then { v with result := PRUNED_PLACEHOLDER } else v

/-- Distinct traversal keys. -/
def keyNe (a b : Visit) : Prop :=
  ¬(a.msgIndex = b.msgIndex ∧ a.partIndex = b.partIndex)

/-- `pruneParts` prepends the replacement of the head part. -/
theorem pruneParts_fst_cons (pruneIndices : List Nat) (j : Nat) (p : Part)
    (rest : List Part) :
    (pruneParts pruneIndices j (p :: rest)).1 =
      applyPrune pruneIndices j p :: (pruneParts pruneIndices (j + 1) rest).1 := by
  cases p with
  | toolResult id res err =>
    simp only [pruneParts, applyPrune]
    split <;> rfl
  | text t => rfl
  | toolCall n a cid => rfl

theorem pruneParts_fst_length (pruneIndices : List Nat) (j : Nat) (ps : List Part) :
    (pruneParts pruneIndices j ps).1.length = ps.length := by
  induction ps generalizing j with
  | nil => rfl
  | cons p rest ih => rw [pruneParts_fst_cons]; simp [ih]

theorem pruneParts_fst_getElem (pruneIndices : List Nat) (j n : Nat) (ps : List Part) :
    (pruneParts pruneIndices j ps).1[n]? = (ps[n]?).map (applyPrune pruneIndices (j + n)) := by
  induction ps generalizing j n with
  | nil => simp [pruneParts]
  | cons p rest ih =>
    cases n with
    | zero => rw [pruneParts_fst_cons]; simp
    | succ n' =>
      rw [pruneParts_fst_cons]
      simp only [List.getElem?_cons_succ]
      rw [ih (j + 1) n']
      have : j + 1 + n' = j + (n' + 1) := by omega
      rw [this]

/-- The part-level rebuild along the reversed list: the original index of the
head of a reversed list is the length of its tail. -/
def revPruneParts (pruneIndices : List Nat) (k : Nat) : List Part → List Part
  | [] => []
  | p :: rest => applyPrune pruneIndices (k + rest.length) p :: revPruneParts pruneIndices k rest

theorem revPruneParts_length (pruneIndices : List Nat) (k : Nat) (l : List Part) :
    (revPruneParts pruneIndices k l).length = l.length := by
  induction l with
  | nil => rfl
  | cons p rest ih => simp [revPruneParts, ih]

theorem revPruneParts_append_singleton (pruneIndices : List Nat) (k : Nat)
    (xs : List Part) (y : Part) :
    revPruneParts pruneIndices k (xs ++ [y]) =
      revPruneParts pruneIndices (k + 1) xs ++ [applyPrune pruneIndices k y] := by
  induction xs with
  | nil => simp [revPruneParts]
  | cons x rest ih =>
    simp only [List.cons_append, revPruneParts, ih, List.append_eq]
    have h : k + (rest ++ [y]).length = k + 1 + rest.length := by
      simp only [List.length_append, List.length_cons, List.length_nil]
      omega
    rw [h]

theorem pruneParts_fst_reverse (pruneIndices : List Nat) (k : Nat) (ps : List Part) :
    ((pruneParts pruneIndices k ps).1).reverse = revPruneParts pruneIndices k ps.reverse := by
  induction ps generalizing k with
  | nil => rfl
  | cons p rest ih =>
    rw [pruneParts_fst_cons]
    simp only [List.reverse_cons]
    rw [ih (k + 1), revPruneParts_append_singleton]

/-- The message-level rebuild along the reversed list. -/
def revPrune (tp : List Cand) (k : Nat) : List Message → List Message
  | [] => []
  | m :: rest => (pruneMsg tp (k + rest.length) m).1 :: revPrune tp k rest

theorem revPrune_length (tp : List Cand) (k : Nat) (l : List Message) :
    (revPrune tp k l).length = l.length := by
  induction l with
  | nil => rfl
  | cons m rest ih => simp [revPrune, ih]

theorem revPrune_append_singleton (tp : List Cand) (k : Nat)
    (xs : List Message) (y : Message) :
    revPrune tp k (xs ++ [y]) = revPrune tp (k + 1) xs ++ [(pruneMsg tp k y).1] := by
  induction xs with
  | nil => simp [revPrune]
  | cons x rest ih =>
    simp only [List.cons_append, revPrune, ih, List.append_eq]
    have h : k + (rest ++ [y]).length = k + 1 + rest.length := by
      simp only [List.length_append, List.length_cons, List.length_nil]
      omega
    rw [h]

theorem rebuildFrom_fst_reverse (tp : List Cand) (k : Nat) (ms : List Message) :
    ((rebuildFrom tp k ms).1).reverse = revPrune tp k ms.reverse := by
  induction ms generalizing k with
  | nil => rfl
  | cons m rest ih =>
    simp only [rebuildFrom, List.reverse_cons]
    rw [ih (k + 1), revPrune_append_singleton]

theorem pruneMsg_role (tp : List Cand) (i : Nat) (m : Message) :
    ((pruneMsg tp i m).1).role = m.role := by
  rcases hcm : m.content with s | ps
  · simp [pruneMsg, hcm]
  · simp only [pruneMsg, hcm]
    split <;> rfl

/-! ### The traversal visits each part position at most once -/

theorem partVisits_partIndex_lt {i : Nat} {l : List Part} {v : Visit}
    (h : v ∈ partVisits i l) : v.partIndex < l.length := by
  obtain ⟨_, pre, p, post, heq, hpi, _⟩ := partVisits_mem h
  rw [heq, hpi]
  simp only [List.length_append, List.length_cons]
  omega

theorem msgVisits_msgIndex {i : Nat} {m : Message} {v : Visit}
    (h : v ∈ msgVisits i m) : v.msgIndex = i := by
  rcases hcm : m.content with s | ps
  · rw [msgVisits, hcm] at h
    simp at h
  · rw [msgVisits, hcm] at h
    exact (partVisits_mem h).1

/-- Traversal order on visits: strictly earlier visits have strictly larger
message index, or the same message index and strictly larger part index. -/
def ordV (a b : Visit) : Prop :=
  b.msgIndex < a.msgIndex ∨ (b.msgIndex = a.msgIndex ∧ b.partIndex < a.partIndex)

theorem partVisits_pairwise (i : Nat) (l : List Part) :
    List.Pairwise (fun a b => b.partIndex < a.partIndex) (partVisits i l) := by
  induction l with
  | nil => exact List.Pairwise.nil
  | cons p rest ih =>
    cases p with
    | toolResult id r e =>
      simp only [partVisits]
      exact List.Pairwise.cons (fun w hw => partVisits_partIndex_lt hw) ih
    | text t => exact ih
    | toolCall n a cid => exact ih

theorem msgVisits_pairwise (i : Nat) (m : Message) :
    List.Pairwise ordV (msgVisits i m) := by
  rcases hcm : m.content with s | ps
  · rw [msgVisits, hcm]
    exact List.Pairwise.nil
  · rw [msgVisits, hcm]
    refine (partVisits_pairwise i ps.reverse).imp_of_mem ?_
    intro a b ha hb hlt
    exact Or.inr ⟨(partVisits_mem hb).1.trans (partVisits_mem ha).1.symm, hlt⟩

theorem eligibleVisits_msgIndex_lt {l : List Message} {u : Nat} {v : Visit}
    (h : v ∈ eligibleVisits l u) : v.msgIndex < l.length := by
  obtain ⟨pre, m, post, heq, hv, _⟩ := eligibleVisits_mem h
  rw [heq, msgVisits_msgIndex hv]
  simp only [List.length_append, List.length_cons]
  omega

theorem eligibleVisits_pairwise (l : List Message) (u : Nat) :
    List.Pairwise ordV (eligibleVisits l u) := by
  induction l generalizing u with
  | nil => exact List.Pairwise.nil
  | cons m rest ih =>
    simp only [eligibleVisits]
    split <;> split <;>
      first
        | exact ih _
        | · refine List.pairwise_append.mpr ⟨msgVisits_pairwise _ _, ih _, ?_⟩
            intro a ha b hb
            exact Or.inl ((eligibleVisits_msgIndex_lt hb).trans_eq (msgVisits_msgIndex ha).symm)

theorem visitSeq_pairwise_keyNe (ms : List Message) :
    List.Pairwise keyNe (visitSeq ms) := by
  refine (eligibleVisits_pairwise ms.reverse 0).imp ?_
  intro a b hord
  rcases hord with hlt | ⟨heq, hlt⟩ <;> rintro ⟨h1, h2⟩ <;> omega

/-! ### Masking commutes with the traversal -/

theorem maskVisit_eq_self {tp : List Cand} {v : Visit}
    (h : tp.any (fun c => visitKeyMatch c v) = false) : maskVisit tp v = v := by
  unfold maskVisit
  rw [if_neg]
  simp [h]

theorem visitKeyMatch_eq_false_of_keyNe {c : Cand} {v w : Visit}
    (hc : c.msgIndex = v.msgIndex ∧ c.partIndex = v.partIndex) (h : keyNe v w) :
    visitKeyMatch c w = false := by
  by_contra hne
  rw [Bool.not_eq_false] at hne
  simp only [visitKeyMatch, Bool.and_eq_true, beq_iff_eq] at hne
  exact h ⟨hc.1.symm.trans hne.1, hc.2.symm.trans hne.2⟩

theorem any_visitKeyMatch_collect_eq_false {v : Visit} {rest : List Visit} {acc : Nat}
    (hhd : ∀ w ∈ rest, keyNe v w) :
    (collect rest acc).any (fun c => visitKeyMatch c v) = false := by
  rw [List.any_eq_false]
  intro c hc
  obtain ⟨s', hmem, _, _⟩ := collect_mem hc
  intro hmatch
  simp only [visitKeyMatch, Bool.and_eq_true, beq_iff_eq] at hmatch
  exact hhd _ hmem ⟨hmatch.1.symm, hmatch.2.symm⟩

theorem map_maskVisit_cons_eq {c : Cand} {tp : List Cand} {seq : List Visit}
    (h : ∀ w ∈ seq, visitKeyMatch c w = false) :
    seq.map (maskVisit (c :: tp)) = seq.map (maskVisit tp) := by
  refine List.map_congr_left fun w hw => ?_
  simp [maskVisit, List.any_cons, h w hw]

theorem map_maskVisit_id {tp : List Cand} {seq : List Visit}
    (h : ∀ v ∈ seq, tp.any (fun c => visitKeyMatch c v) = false) :
    seq.map (maskVisit tp) = seq := by
  have := List.map_congr_left (l := seq) (f := maskVisit tp) (g := fun v => v)
    (fun v hv => maskVisit_eq_self (h v hv))
  rw [this, List.map_id']

theorem partVisits_revPruneParts {tp : List Cand} {pruneIndices : List Nat} {i : Nat}
    (hpi : ∀ j, j ∈ pruneIndices ↔ ∃ c ∈ tp, c.msgIndex = i ∧ c.partIndex = j)
    (l : List Part) :
    partVisits i (revPruneParts pruneIndices 0 l) = (partVisits i l).map (maskVisit tp) := by
  induction l with
  | nil => rfl
  | cons p rest ih =>
    simp only [revPruneParts, Nat.zero_add]
    cases p with
    | toolResult id r e =>
      by_cases hin : rest.length ∈ pruneIndices
      · rw [show applyPrune pruneIndices rest.length (Part.toolResult id r e) =
            Part.toolResult id PRUNED_PLACEHOLDER e by simp [applyPrune, hin]]
        simp only [partVisits, revPruneParts_length, List.map_cons]
        rw [ih]
        have hmask : maskVisit tp ⟨i, rest.length, r⟩ =
            ({ msgIndex := i, partIndex := rest.length, result := PRUNED_PLACEHOLDER } : Visit) := by
          obtain ⟨c, hc, hci, hcp⟩ := (hpi rest.length).mp hin
          unfold maskVisit
          rw [if_pos]
          rw [List.any_eq_true]
          exact ⟨c, hc, by simp [visitKeyMatch, hci, hcp]⟩
        rw [hmask]
      · rw [show applyPrune pruneIndices rest.length (Part.toolResult id r e) =
            Part.toolResult id r e by simp [applyPrune, hin]]
        simp only [partVisits, revPruneParts_length, List.map_cons]
        rw [ih]
        have hmask : maskVisit tp ⟨i, rest.length, r⟩ = ⟨i, rest.length, r⟩ := by
          refine maskVisit_eq_self ?_
          rw [List.any_eq_false]
          intro c hc hmatch
          simp only [visitKeyMatch, Bool.and_eq_true, beq_iff_eq] at hmatch
          exact hin ((hpi rest.length).mpr ⟨c, hc, hmatch.1, hmatch.2⟩)
        rw [hmask]
    | text t => simpa [partVisits, applyPrune] using ih
    | toolCall n a cid => simpa [partVisits, applyPrune] using ih

theorem msgVisits_pruneMsg (tp : List Cand) (i : Nat) (m : Message) :
    msgVisits i ((pruneMsg tp i m).1) = (msgVisits i m).map (maskVisit tp) := by
  rcases hcm : m.content with s | ps
  · simp [pruneMsg, msgVisits, hcm]
  · have hpi : ∀ j, j ∈ ((tp.filter (fun c => c.msgIndex == i)).map Cand.partIndex) ↔
        ∃ c ∈ tp, c.msgIndex = i ∧ c.partIndex = j := by
      intro j
      simp only [List.mem_map, List.mem_filter, beq_iff_eq]
      constructor
      · rintro ⟨c, ⟨hc, hci⟩, hcp⟩
        exact ⟨c, hc, hci, hcp⟩
      · rintro ⟨c, hc, hci, hcp⟩
        exact ⟨c, ⟨hc, hci⟩, hcp⟩
    simp only [pruneMsg, hcm]
    by_cases hemp : ((tp.filter (fun c => c.msgIndex == i)).map Cand.partIndex).isEmpty
    · rw [if_pos hemp]
      rw [msgVisits, hcm]
      refine (map_maskVisit_id ?_).symm
      intro v hv
      rw [List.any_eq_false]
      intro c hc hmatch
      simp only [visitKeyMatch, Bool.and_eq_true, beq_iff_eq] at hmatch
      have hvi : v.msgIndex = i := (partVisits_mem hv).1
      have : v.partIndex ∈ ((tp.filter (fun c => c.msgIndex == i)).map Cand.partIndex) :=
        (hpi v.partIndex).mpr ⟨c, hc, hmatch.1.trans hvi, hmatch.2⟩
      rw [List.isEmpty_iff] at hemp
      rw [hemp] at this
      simp at this
    · rw [if_neg hemp]
      show msgVisits i ⟨m.role, Content.parts (pruneParts _ 0 ps).1⟩ = _
      rw [msgVisits]
      simp only
      rw [pruneParts_fst_reverse]
      rw [partVisits_revPruneParts hpi]
      rw [msgVisits, hcm]

theorem isUserMsg_pruneMsg (tp : List Cand) (i : Nat) (m : Message) :
    isUserMsg ((pruneMsg tp i m).1) = isUserMsg m := by
  simp [isUserMsg, pruneMsg_role]

theorem eligibleVisits_revPrune (tp : List Cand) (l : List Message) (u : Nat) :
    eligibleVisits (revPrune tp 0 l) u = (eligibleVisits l u).map (maskVisit tp) := by
  induction l generalizing u with
  | nil => rfl
  | cons m rest ih =>
    simp only [revPrune, Nat.zero_add, eligibleVisits, isUserMsg_pruneMsg, revPrune_length]
    by_cases hu : (if isUserMsg m = true then u + 1 else u) < 2
    · rw [if_pos hu, if_pos hu]
      exact ih _
    · rw [if_neg hu, if_neg hu, List.map_append, msgVisits_pruneMsg, ih]

theorem visitSeq_rebuildFrom (tp : List Cand) (ms : List Message) :
    visitSeq ((rebuildFrom tp 0 ms).1) = (visitSeq ms).map (maskVisit tp) := by
  rw [visitSeq, rebuildFrom_fst_reverse, eligibleVisits_revPrune, visitSeq]

/-- The key lemma for idempotence: re-collecting over a sequence whose
candidates (relative to running total `acc1`) have been masked yields no
candidates, for any starting total `acc2 ≤ acc1`. -/
theorem collect_map_mask_eq_nil (seq : List Visit) (acc1 acc2 : Nat)
    (h12 : acc2 ≤ acc1) (hnd : List.Pairwise keyNe seq) :
    collect (seq.map (maskVisit (collect seq acc1))) acc2 = [] := by
  induction seq generalizing acc1 acc2 with
  | nil => rfl
  | cons v rest ih =>
    have hhd : ∀ w ∈ rest, keyNe v w := (List.pairwise_cons.mp hnd).1
    have hrest : List.Pairwise keyNe rest := (List.pairwise_cons.mp hnd).2
    by_cases hph : v.result = PRUNED_PLACEHOLDER
    · have hT : collect (v :: rest) acc1 = collect rest acc1 := by
        simp only [collect]
        rw [if_pos hph]
      rw [hT]
      simp only [List.map_cons]
      rw [maskVisit_eq_self (any_visitKeyMatch_collect_eq_false hhd)]
      simp only [collect]
      rw [if_pos hph]
      exact ih acc1 acc2 h12 hrest
    · by_cases hgt : acc1 + estimateTokens v.result > PRUNE_PROTECT
      · have hT : collect (v :: rest) acc1 =
            ⟨v.msgIndex, v.partIndex, estimateTokens v.result⟩ ::
              collect rest (acc1 + estimateTokens v.result) := by
          simp only [collect]
          rw [if_neg hph, if_pos hgt]
        rw [hT]
        simp only [List.map_cons]
        have hmv : maskVisit (⟨v.msgIndex, v.partIndex, estimateTokens v.result⟩ ::
            collect rest (acc1 + estimateTokens v.result)) v =
            { v with result := PRUNED_PLACEHOLDER } := by
          unfold maskVisit
          rw [if_pos]
          rw [List.any_cons]
          simp [visitKeyMatch]
        rw [hmv]
        rw [map_maskVisit_cons_eq
          (fun w hw => visitKeyMatch_eq_false_of_keyNe ⟨rfl, rfl⟩ (hhd w hw))]
        simp only [collect]
        rw [if_pos trivial]
        exact ih (acc1 + estimateTokens v.result) acc2 (h12.trans (Nat.le_add_right _ _)) hrest
      · have hT : collect (v :: rest) acc1 = collect rest (acc1 + estimateTokens v.result) := by
          simp only [collect]
          rw [if_neg hph, if_neg hgt]
        rw [hT]
        simp only [List.map_cons]
        rw [maskVisit_eq_self (any_visitKeyMatch_collect_eq_false hhd)]
        simp only [collect]
        rw [if_neg hph]
        rw [if_neg (show ¬(acc2 + estimateTokens v.result > PRUNE_PROTECT) by omega)]
        exact ih (acc1 + estimateTokens v.result) (acc2 + estimateTokens v.result)
          (Nat.add_le_add_right h12 _) hrest

/-! ## C5: prune idempotence -/

/-- C5: `pruneToolOutputs` is idempotent — applied to its own output it
returns that message array unchanged with `prunedCount = 0` and
`tokensSaved = 0`, because replaced parts now hold the placeholder (which the
candidate scan skips) and every remaining tool result sits inside the
protected window. -/
theorem pruneToolOutputs_idempotent (ms : List Message) :
    pruneToolOutputs (pruneToolOutputs ms).messages =
      ⟨(pruneToolOutputs ms).messages, 0, 0⟩ := by
  by_cases hmin : ((pruneCandidates ms).map Cand.tokens).sum < PRUNE_MINIMUM
  · have h1 : pruneToolOutputs ms = ⟨ms, 0, 0⟩ := by
      simp only [pruneToolOutputs]
      rw [if_pos hmin]
    rw [h1]
    simp only [pruneToolOutputs]
    rw [if_pos hmin]
  · have h1 : (pruneToolOutputs ms).messages = (rebuildFrom (pruneCandidates ms) 0 ms).1 := by
      simp only [pruneToolOutputs]
      rw [if_neg hmin]
    have hcand : pruneCandidates ((rebuildFrom (pruneCandidates ms) 0 ms).1) = [] := by
      show collect (visitSeq ((rebuildFrom (pruneCandidates ms) 0 ms).1)) 0 = []
      rw [visitSeq_rebuildFrom]
      exact collect_map_mask_eq_nil (visitSeq ms) 0 0 (Nat.le_refl 0)
        (visitSeq_pairwise_keyNe ms)
    rw [h1]
    simp only [pruneToolOutputs]
    rw [if_pos]
    rw [hcand]
    simp [PRUNE_MINIMUM]

/-! ## Lemmas locating candidates in the conversation (C6) -/

/-- Whether the part at `(i, j)` is one of the candidates the second pass
replaces. -/
def isPruneTarget (ms : List Message) (i j : Nat) : Bool :=
  (pruneCandidates ms).any (fun c => c.msgIndex == i && c.partIndex == j)

theorem isPruneTarget_iff_mem (ms : List Message) (i j : Nat) :
    isPruneTarget ms i j = true ↔
      j ∈ (((pruneCandidates ms).filter (fun c => c.msgIndex == i)).map Cand.partIndex) := by
  rw [isPruneTarget, List.any_eq_true]
  simp only [List.mem_map, List.mem_filter, Bool.and_eq_true, beq_iff_eq]
  constructor
  · rintro ⟨c, hc, hci, hcj⟩
    exact ⟨c, ⟨hc, hci⟩, hcj⟩
  · rintro ⟨c, ⟨hc, hci⟩, hcj⟩
    exact ⟨c, hc, hci, hcj⟩

/-- Every visit of the backward traversal points at an actual tool-result
part of the conversation. -/
theorem visitSeq_mem_part {ms : List Message} {v : Visit} (h : v ∈ visitSeq ms) :
    ∃ m ps id e, ms[v.msgIndex]? = some m ∧ m.content = Content.parts ps ∧
      ps[v.partIndex]? = some (Part.toolResult id v.result e) := by
  obtain ⟨pre, m, post, hrev, hv, _⟩ := eligibleVisits_mem h
  have hms : ms = post.reverse ++ m :: pre.reverse := by
    have := congrArg List.reverse hrev
    simpa using this
  have hvi : v.msgIndex = post.length := msgVisits_msgIndex hv
  have hget : ms[v.msgIndex]? = some m := by
    rw [hms, hvi, List.getElem?_append_right (by simp)]
    simp
  rcases hcm : m.content with s | ps
  · rw [msgVisits, hcm] at hv
    simp at hv
  · rw [msgVisits, hcm] at hv
    obtain ⟨_, pre', p, post', heq, hpi, id, e, hp⟩ := partVisits_mem hv
    have hps : ps = post'.reverse ++ p :: pre'.reverse := by
      have := congrArg List.reverse heq
      simpa using this
    have hgetp : ps[v.partIndex]? = some p := by
      rw [hps, hpi, List.getElem?_append_right (by simp)]
      simp
    exact ⟨m, ps, id, e, hget, hcm, by rw [hgetp, hp]⟩

/-- A prune target is an actual, not-yet-pruned tool-result part. -/
theorem pruneCandidates_target_part {ms : List Message} {i j : Nat}
    (h : isPruneTarget ms i j = true) :
    ∃ m ps id s e, ms[i]? = some m ∧ m.content = Content.parts ps ∧
      ps[j]? = some (Part.toolResult id s e) ∧ s ≠ PRUNED_PLACEHOLDER := by
  rw [isPruneTarget, List.any_eq_true] at h
  obtain ⟨c, hc, hmatch⟩ := h
  simp only [Bool.and_eq_true, beq_iff_eq] at hmatch
  obtain ⟨s, hv, hs, _⟩ := collect_mem hc
  obtain ⟨m, ps, id, e, hm, hcm, hp⟩ := visitSeq_mem_part hv
  rw [show (⟨c.msgIndex, c.partIndex, s⟩ : Visit).msgIndex = c.msgIndex from rfl,
      hmatch.1] at hm
  rw [show (⟨c.msgIndex, c.partIndex, s⟩ : Visit).partIndex = c.partIndex from rfl,
      hmatch.2] at hp
  exact ⟨m, ps, id, s, e, hm, hcm, hp, hs⟩

/-! ## C6: the prune frame -/

/-- C6: when pruning proceeds (candidate savings at or above the minimum),
`pruneToolOutputs` changes only candidate tool-result parts: the result has
the same message count, every message keeps its role, plain-text messages and
non-candidate parts are returned unchanged and in the same order, and each
candidate part keeps its call identifier and error flag while its result
content becomes the fixed placeholder string.  (The embedding is a pure
function, reflecting that the source builds a new array and never mutates
its input.) -/
theorem pruneToolOutputs_frame (ms : List Message)
    (hmin : PRUNE_MINIMUM ≤ potentialSavings ms) :
    (pruneToolOutputs ms).messages.length = ms.length ∧
    ∀ i m, ms[i]? = some m →
      ∃ m', (pruneToolOutputs ms).messages[i]? = some m' ∧ m'.role = m.role ∧
        (∀ s, m.content = Content.str s → m' = m) ∧
        (∀ ps, m.content = Content.parts ps →
          ∃ ps', m'.content = Content.parts ps' ∧ ps'.length = ps.length ∧
            ∀ j p, ps[j]? = some p →
              (isPruneTarget ms i j = false → ps'[j]? = some p) ∧
              (isPruneTarget ms i j = true →
                ∃ id r e, p = Part.toolResult id r e ∧
                  ps'[j]? = some (Part.toolResult id PRUNED_PLACEHOLDER e))) := by
  have hnot : ¬(((pruneCandidates ms).map Cand.tokens).sum < PRUNE_MINIMUM) := by
    rw [Nat.not_lt]
    simpa [potentialSavings] using hmin
  have hmsgs : (pruneToolOutputs ms).messages = (rebuildFrom (pruneCandidates ms) 0 ms).1 := by
    simp only [pruneToolOutputs]
    rw [if_neg hnot]
  refine ⟨by rw [hmsgs, rebuildFrom_length], ?_⟩
  intro i m hm
  refine ⟨(pruneMsg (pruneCandidates ms) i m).1, ?_, pruneMsg_role _ _ _, ?_, ?_⟩
  · rw [hmsgs, rebuildFrom_getElem, Nat.zero_add, hm, Option.map_some']
  · intro s hcm
    simp [pruneMsg, hcm]
  · intro ps hcm
    by_cases hemp :
        ((((pruneCandidates ms).filter (fun c => c.msgIndex == i)).map Cand.partIndex)).isEmpty
    · refine ⟨ps, ?_, rfl, ?_⟩
      · simp [pruneMsg, hcm, hemp]
      · intro j p hp
        refine ⟨fun _ => hp, fun htgt => ?_⟩
        exfalso
        have hmem := (isPruneTarget_iff_mem ms i j).mp htgt
        rw [List.isEmpty_iff] at hemp
        rw [hemp] at hmem
        simp at hmem
    · refine ⟨(pruneParts (((pruneCandidates ms).filter
          (fun c => c.msgIndex == i)).map Cand.partIndex) 0 ps).1, ?_,
          pruneParts_fst_length _ _ _, ?_⟩
      · simp [pruneMsg, hcm, hemp]
      · intro j p hp
        have hget : (pruneParts (((pruneCandidates ms).filter
            (fun c => c.msgIndex == i)).map Cand.partIndex) 0 ps).1[j]? =
            some (applyPrune (((pruneCandidates ms).filter
              (fun c => c.msgIndex == i)).map Cand.partIndex) j p) := by
          rw [pruneParts_fst_getElem, Nat.zero_add, hp, Option.map_some']
        constructor
        · intro hf
          have hnotmem : j ∉ (((pruneCandidates ms).filter
              (fun c => c.msgIndex == i)).map Cand.partIndex) := by
            intro hmem
            have := (isPruneTarget_iff_mem ms i j).mpr hmem
            rw [hf] at this
            exact Bool.false_ne_true this
          rw [hget]
          cases p <;> simp [applyPrune, hnotmem]
        · intro htgt
          obtain ⟨m₂, ps₂, id, s, e, hm₂, hcm₂, hp₂, _⟩ := pruneCandidates_target_part htgt
          rw [hm] at hm₂
          injection hm₂ with hme
          subst hme
          rw [hcm] at hcm₂
          injection hcm₂ with hpse
          subst hpse
          rw [hp] at hp₂
          injection hp₂ with hpe
          have hmem : j ∈ (((pruneCandidates ms).filter
              (fun c => c.msgIndex == i)).map Cand.partIndex) :=
            (isPruneTarget_iff_mem ms i j).mp htgt
          refine ⟨id, s, e, hpe, ?_⟩
          rw [hget, hpe]
          simp [applyPrune, hmem]

/-! ### Concrete witness conversation for C6 -/

/-- One step of the candidate scan on a single oversized visit. -/
theorem collect_singleton (i j : Nat) (s : String) (h : s ≠ PRUNED_PLACEHOLDER)
    (hgt : estimateTokens s > PRUNE_PROTECT) :
    collect [⟨i, j, s⟩] 0 = [⟨i, j, estimateTokens s⟩] := by
  simp only [collect]
  rw [if_neg h, if_pos (show 0 + estimateTokens s > PRUNE_PROTECT by omega)]

/-- A 160,002-character tool output, estimated at 40,001 tokens — just past
the 40,000-token protection window. -/
def bigResult : String :=
  String.mk (List.replicate 160002 'a')

/-- A conversation whose oldest message holds one huge prunable tool result,
followed by two complete user turns. -/
def wMessages : List Message :=
  [⟨Role.tool, Content.parts [Part.toolResult "call_1" bigResult false]⟩,
   ⟨Role.user, Content.str "first"⟩,
   ⟨Role.assistant, Content.str "ok"⟩,
   ⟨Role.user, Content.str "second"⟩]

theorem bigResult_length : bigResult.length = 160002 := by
  rw [bigResult]
  rw [show (String.mk (List.replicate 160002 'a')).length =
      (List.replicate 160002 'a').length from rfl]
  exact List.length_replicate _ _

theorem estimateTokens_bigResult : estimateTokens bigResult = 40001 := by
  rw [estimateTokens, bigResult_length]
  rfl

theorem bigResult_ne_placeholder : bigResult ≠ PRUNED_PLACEHOLDER := by
  intro h
  have h2 := congrArg String.length h
  rw [bigResult_length] at h2
  have h3 : PRUNED_PLACEHOLDER.length = 42 := rfl
  omega

theorem pruneCandidates_wMessages : pruneCandidates wMessages = [⟨0, 0, 40001⟩] := by
  show collect (visitSeq wMessages) 0 = _
  rw [show visitSeq wMessages = [⟨0, 0, bigResult⟩] from rfl]
  rw [collect_singleton 0 0 bigResult bigResult_ne_placeholder
    (by rw [estimateTokens_bigResult, PRUNE_PROTECT]; omega)]
  rw [estimateTokens_bigResult]

theorem potentialSavings_wMessages : potentialSavings wMessages = 40001 := by
  simp [potentialSavings, pruneCandidates_wMessages]

/-- Witness for C6 at a concrete conversation whose prunable savings exceed
the minimum. -/
theorem pruneToolOutputs_frame_witness :
    PRUNE_MINIMUM ≤ potentialSavings wMessages ∧
      (pruneToolOutputs wMessages).messages.length = wMessages.length :=
  ⟨by rw [potentialSavings_wMessages, PRUNE_MINIMUM]; omega,
   (pruneToolOutputs_frame wMessages
     (by rw [potentialSavings_wMessages, PRUNE_MINIMUM]; omega)).1⟩
end Karyo
